import Mathlib

/-!
Verification of the control-flow structuring back-end of the fcd decompiler
(`x86Emulator/program_output.cpp`, `x86Emulator/ast_grapher.cpp`).

Basic blocks and IR values are identified by natural numbers.  The expression
and statement languages (`ast_nodes.h`, not among the sources) are modelled
from the specification's data model: expressions are `Value(v)`, `UnaryNot(e)`
and `Binary(op, l, r)`; statements are `Expression`, `Sequence`, `IfElse`,
`Loop` and the `Break` sentinel.
-/

/-- Binary operator kinds of `BinaryOperatorExpression`; the structuring
back-end only builds the two short-circuiting connectives. -/
inductive BinaryOp where
  | shortCircuitAnd
  | shortCircuitOr
deriving DecidableEq, Repr

/-- Modelled from the spec: an `Expression` is a finite tree whose node kinds
are `Value(v)` (an opaque handle to an IR value, identified here by a `Nat`),
`UnaryNot(e)` (a `UnaryOperatorExpression` with the `LogicalNegate` operator,
the only unary operator the back-end creates), and `Binary(op, l, r)`. -/
inductive Expr where
  | value : Nat → Expr
  | unaryNot : Expr → Expr
  | binOp : BinaryOp → Expr → Expr → Expr
deriving DecidableEq, Repr

/-- Modelled from the spec: `isReferenceEqual` matches identical
sub-expressions produced from the same IR value.  Two `Value` nodes made from
the same IR value are reference-equal, and compound nodes are reference-equal
when they have the same shape over reference-equal parts, so on this model the
predicate is structural equality. -/
def Expr.isReferenceEqual (a b : Expr) : Bool := a = b

/-- Loop positions of `LoopNode` (`position ∈ {Endless, PreTested, PostTested}`
in the spec's data model). -/
inductive LoopPos where
  | endless
  | preTested
  | postTested
deriving DecidableEq, Repr

/-- Modelled from the spec: a `Statement` is a tagged variant of
`Expression(e)`, `Sequence([s1, ..., sn])`, `IfElse(cond, then, else?)`,
`Loop(cond?, position, body)` and the `Break` sentinel singleton
(`BreakNode::breakNode`). -/
inductive Stmt where
  | expr : Expr → Stmt
  | seq : List Stmt → Stmt
  | ifElse : Expr → Stmt → Option Stmt → Stmt
  | loop : Option Expr → LoopPos → Stmt → Stmt
  | brk : Stmt
deriving Repr

mutual

/-- Boolean structural equality on statements (needed because `deriving
DecidableEq` does not handle the nested `List Stmt`). -/
def Stmt.beq : Stmt → Stmt → Bool
  | .expr e1, .expr e2 => e1 = e2
  | .seq l1, .seq l2 => Stmt.beqList l1 l2
  | .ifElse c1 t1 e1, .ifElse c2 t2 e2 => c1 = c2 && Stmt.beq t1 t2 && Stmt.beqOpt e1 e2
  | .loop c1 p1 b1, .loop c2 p2 b2 => c1 = c2 && p1 = p2 && Stmt.beq b1 b2
  | .brk, .brk => true
  | _, _ => false

/-- Pointwise `Stmt.beq` on lists. -/
def Stmt.beqList : List Stmt → List Stmt → Bool
  | [], [] => true
  | a :: as, b :: bs => Stmt.beq a b && Stmt.beqList as bs
  | _, _ => false

/-- Pointwise `Stmt.beq` on optional statements. -/
def Stmt.beqOpt : Option Stmt → Option Stmt → Bool
  | none, none => true
  | some a, some b => Stmt.beq a b
  | _, _ => false

end

mutual

theorem Stmt.beq_iff : ∀ a b : Stmt, Stmt.beq a b = true ↔ a = b
  | .expr e1, .expr e2 => by simp [Stmt.beq]
  | .seq l1, .seq l2 => by simp [Stmt.beq, Stmt.beqList_iff l1 l2]
  | .ifElse c1 t1 e1, .ifElse c2 t2 e2 => by
      simp [Stmt.beq, Stmt.beq_iff t1 t2, Stmt.beqOpt_iff e1 e2, and_assoc]
  | .loop c1 p1 b1, .loop c2 p2 b2 => by
      simp [Stmt.beq, Stmt.beq_iff b1 b2, and_assoc]
  | .brk, .brk => by simp [Stmt.beq]
  | .expr _, .seq _ => by simp [Stmt.beq]
  | .expr _, .ifElse _ _ _ => by simp [Stmt.beq]
  | .expr _, .loop _ _ _ => by simp [Stmt.beq]
  | .expr _, .brk => by simp [Stmt.beq]
  | .seq _, .expr _ => by simp [Stmt.beq]
  | .seq _, .ifElse _ _ _ => by simp [Stmt.beq]
  | .seq _, .loop _ _ _ => by simp [Stmt.beq]
  | .seq _, .brk => by simp [Stmt.beq]
  | .ifElse _ _ _, .expr _ => by simp [Stmt.beq]
  | .ifElse _ _ _, .seq _ => by simp [Stmt.beq]
  | .ifElse _ _ _, .loop _ _ _ => by simp [Stmt.beq]
  | .ifElse _ _ _, .brk => by simp [Stmt.beq]
  | .loop _ _ _, .expr _ => by simp [Stmt.beq]
  | .loop _ _ _, .seq _ => by simp [Stmt.beq]
  | .loop _ _ _, .ifElse _ _ _ => by simp [Stmt.beq]
  | .loop _ _ _, .brk => by simp [Stmt.beq]
  | .brk, .expr _ => by simp [Stmt.beq]
  | .brk, .seq _ => by simp [Stmt.beq]
  | .brk, .ifElse _ _ _ => by simp [Stmt.beq]
  | .brk, .loop _ _ _ => by simp [Stmt.beq]

theorem Stmt.beqList_iff : ∀ a b : List Stmt, Stmt.beqList a b = true ↔ a = b
  | [], [] => by simp [Stmt.beqList]
  | a :: as, b :: bs => by
      simp [Stmt.beqList, Stmt.beq_iff a b, Stmt.beqList_iff as bs]
  | [], _ :: _ => by simp [Stmt.beqList]
  | _ :: _, [] => by simp [Stmt.beqList]

theorem Stmt.beqOpt_iff : ∀ a b : Option Stmt, Stmt.beqOpt a b = true ↔ a = b
  | none, none => by simp [Stmt.beqOpt]
  | some a, some b => by simp [Stmt.beqOpt, Stmt.beq_iff a b]
  | none, some _ => by simp [Stmt.beqOpt]
  | some _, none => by simp [Stmt.beqOpt]

end

instance : DecidableEq Stmt := fun a b => decidable_of_iff _ (Stmt.beq_iff a b)

/-- `logicalNegate` (program_output.cpp:164-174): negating an expression strips
one outer `LogicalNegate` when present, and wraps the expression in a fresh
`LogicalNegate` otherwise. -/
def logicalNegate : Expr → Expr
  | .unaryNot x => x
  | e => .unaryNot e

/-- The `while` loop at the head of `recursivelySimplifyIfElse`
(program_output.cpp:426-437), for the case where an else branch exists: strip
all leading `LogicalNegate` operators from the condition; each stripped
negation swaps the two branches.  Returns the stripped condition and the
parity of the number of strips (`true` when the branches end up swapped). -/
def stripIfElseNegations : Expr → Expr × Bool
  | .unaryNot x =>
      let (c, f) := stripIfElseNegations x
      (c, !f)
  | c => (c, false)

mutual

/-- `recursivelySimplifyStatement` (program_output.cpp:498-514), together with
`recursivelySimplifySequence` (401-422), `recursivelySimplifyIfElse` (424-457)
and `recursivelySimplifyLoop` (459-496).

Sequence: simplify the children, splice the statements of children that
simplified to sequences, and collapse a singleton result to its sole element.

IfElse: while the condition is `LogicalNegate` and an else branch exists,
strip the negation and swap the branches; then simplify both bodies; when no
else branch exists and the simplified then-body is itself an `IfElse` without
an else branch, merge the two guards with `ShortCircuitAnd` and hoist the
inner then-body.

Loop: simplify the body; if the loop is endless and the (simplified) body is a
sequence whose last element is an `IfElse` whose then-branch is the `Break`
sentinel, turn the loop into a post-tested loop on `logicalNegate` of that
`IfElse`'s condition and drop the trailing `IfElse` (the source asserts that
the body sequence is non-empty there; on an empty sequence this model performs
no rewrite). -/
def recursivelySimplifyStatement : Stmt → Stmt
  | .seq ss =>
      match recursivelySimplifySequenceList ss with
      | [t] => t
      | l => .seq l
  | .ifElse c tb eb =>
      match eb with
      | some e =>
          match stripIfElseNegations c with
          | (c', true) =>
              .ifElse c' (recursivelySimplifyStatement e)
                (some (recursivelySimplifyStatement tb))
          | (c', false) =>
              .ifElse c' (recursivelySimplifyStatement tb)
                (some (recursivelySimplifyStatement e))
      | none =>
          match recursivelySimplifyStatement tb with
          | .ifElse c2 tb2 none => .ifElse (.binOp .shortCircuitAnd c c2) tb2 none
          | t => .ifElse c t none
  | .loop cond pos body =>
      let body' := recursivelySimplifyStatement body
      if pos = .endless then
        match body' with
        | .seq ss =>
            match ss.getLast? with
            | some (.ifElse c tb _) =>
                if tb = Stmt.brk then
                  .loop (some (logicalNegate c)) .postTested (.seq ss.dropLast)
                else .loop cond pos body'
            | _ => .loop cond pos body'
        | _ => .loop cond pos body'
      else .loop cond pos body'
  | s => s

/-- The child loop of `recursivelySimplifySequence` (program_output.cpp:404-419):
simplify each child in order; a child that simplified to a sequence contributes
its statements, any other child contributes itself. -/
def recursivelySimplifySequenceList : List Stmt → List Stmt
  | [] => []
  | s :: rest =>
      (match recursivelySimplifyStatement s with
       | .seq inner => inner
       | t => [t]) ++ recursivelySimplifySequenceList rest

end

/-- Whether an expression is a `UnaryNot` (`LogicalNegate`) node. -/
def isNegated : Expr → Bool
  | .unaryNot _ => true
  | _ => false

/-- Whether a statement is an `IfElse` without an else branch. -/
def isIfElseWithoutElse : Stmt → Bool
  | .ifElse _ _ none => true
  | _ => false

/-- Whether a statement is a `Sequence`. -/
def isSeqStmt : Stmt → Bool
  | .seq _ => true
  | _ => false

mutual

/-- The invariant of spec §8: every `IfElse` that has an else branch has a
condition that is not `UnaryNot` of anything. -/
def noNegCondWithElse : Stmt → Bool
  | .expr _ => true
  | .brk => true
  | .seq ss => noNegCondWithElseList ss
  | .ifElse c tb eb =>
      noNegCondWithElse tb &&
      (match eb with
       | some e => !(isNegated c) && noNegCondWithElse e
       | none => true)
  | .loop _ _ b => noNegCondWithElse b

/-- `noNegCondWithElse` over every element of a list. -/
def noNegCondWithElseList : List Stmt → Bool
  | [] => true
  | s :: rest => noNegCondWithElse s && noNegCondWithElseList rest

end

theorem stripIfElseNegations_not_negated :
    ∀ c : Expr, isNegated (stripIfElseNegations c).1 = false
  | .unaryNot x => by
      simpa [stripIfElseNegations] using stripIfElseNegations_not_negated x
  | .value _ => by simp [stripIfElseNegations, isNegated]
  | .binOp _ _ _ => by simp [stripIfElseNegations, isNegated]

theorem noNegCondWithElseList_eq_all (ss : List Stmt) :
    noNegCondWithElseList ss = ss.all noNegCondWithElse := by
  induction ss with
  | nil => rfl
  | cons s rest ih => simp [noNegCondWithElseList, ih]

mutual

theorem noNegCondWithElse_simplify :
    ∀ s : Stmt, noNegCondWithElse (recursivelySimplifyStatement s) = true
  | .expr _ => by simp [recursivelySimplifyStatement, noNegCondWithElse]
  | .brk => by simp [recursivelySimplifyStatement, noNegCondWithElse]
  | .seq ss => by
      have h := noNegCondWithElse_simplifyList ss
      simp only [recursivelySimplifyStatement]
      split
      · next t heq =>
          rw [heq] at h
          simpa [noNegCondWithElseList] using h
      · simpa [noNegCondWithElse] using h
  | .ifElse c tb (some e) => by
      have ht := noNegCondWithElse_simplify tb
      have he := noNegCondWithElse_simplify e
      have hc := stripIfElseNegations_not_negated c
      simp only [recursivelySimplifyStatement]
      split
      · next c' heq =>
          rw [heq] at hc
          simp_all [noNegCondWithElse]
      · next c' heq =>
          rw [heq] at hc
          simp_all [noNegCondWithElse]
  | .ifElse c tb none => by
      have ht := noNegCondWithElse_simplify tb
      simp only [recursivelySimplifyStatement]
      split
      · next c2 tb2 heq =>
          rw [heq] at ht
          simp_all [noNegCondWithElse]
      · simp_all [noNegCondWithElse]
  | .loop cond pos body => by
      have hb := noNegCondWithElse_simplify body
      simp only [recursivelySimplifyStatement]
      split
      · split
        · next ss heq =>
            split
            · next c tb eb heq2 =>
                split
                · rw [heq] at hb
                  simp only [noNegCondWithElse] at hb ⊢
                  rw [noNegCondWithElseList_eq_all] at hb ⊢
                  simp only [List.all_eq_true] at hb ⊢
                  intro x hx
                  exact hb x (List.dropLast_subset _ hx)
                · simpa [noNegCondWithElse, heq] using hb
            · simpa [noNegCondWithElse, heq] using hb
        · simpa [noNegCondWithElse] using hb
      · simpa [noNegCondWithElse] using hb

theorem noNegCondWithElse_simplifyList :
    ∀ ss : List Stmt,
      noNegCondWithElseList (recursivelySimplifySequenceList ss) = true
  | [] => by simp [recursivelySimplifySequenceList, noNegCondWithElseList]
  | s :: rest => by
      have hs := noNegCondWithElse_simplify s
      have hr := noNegCondWithElse_simplifyList rest
      simp only [recursivelySimplifySequenceList]
      rw [noNegCondWithElseList_eq_all] at hr ⊢
      simp only [List.all_append, Bool.and_eq_true, List.all_eq_true] at *
      constructor
      · intro x hx
        split at hx
        · next inner heq =>
            rw [heq] at hs
            simp only [noNegCondWithElse] at hs
            rw [noNegCondWithElseList_eq_all] at hs
            simp only [List.all_eq_true] at hs
            exact hs x hx
        · next heq =>
            simp only [List.mem_singleton] at hx
            subst hx
            exact hs
      · exact hr

end

/-- The AST registered by `AstBackEnd::runOnRegion` (program_output.cpp:721-727)
for a structurized region sequence `s`: the recursively simplified statement. -/
def runOnRegionStatement (s : Stmt) : Stmt := recursivelySimplifyStatement s

/-- The AST registered by `AstBackEnd::runOnLoop` (program_output.cpp:706-719)
for a structurized region sequence `s`: the recursively simplified statement
wrapped in an endless `LoopNode` (modelled from the spec: the single-argument
`LoopNode` constructor builds an endless loop). -/
def runOnLoopStatement (s : Stmt) : Stmt :=
  .loop none .endless (recursivelySimplifyStatement s)

/-- C7: in every `IfElse` statement contained in the AST registered for a
structured region — the output of `runOnRegion` or `runOnLoop` after
simplification — whenever an else branch exists, the condition expression is
not a `UnaryNot` of any expression. -/
theorem registered_ast_noNegCondWithElse :
    ∀ s : Stmt, noNegCondWithElse (runOnRegionStatement s) = true ∧
      noNegCondWithElse (runOnLoopStatement s) = true := by
  intro s
  refine ⟨noNegCondWithElse_simplify s, ?_⟩
  simpa [runOnLoopStatement, noNegCondWithElse] using noNegCondWithElse_simplify s

/-- C6 (counterexample): on an endless loop whose body ends in
`IfElse(UnaryNot(v1), Break)`, the simplifier produces a post-tested loop whose
condition is `v1` — `logicalNegate` strips the existing negation — and not the
claimed `UnaryNot(UnaryNot(v1))`. -/
theorem recursivelySimplifyLoop_negated_cond_counterexample :
    recursivelySimplifyStatement
        (.loop none .endless
          (.seq [.expr (.value 0), .ifElse (.unaryNot (.value 1)) .brk none]))
      = .loop (some (.value 1)) .postTested (.seq [.expr (.value 0)]) ∧
    recursivelySimplifyStatement
        (.loop none .endless
          (.seq [.expr (.value 0), .ifElse (.unaryNot (.value 1)) .brk none]))
      ≠ .loop (some (.unaryNot (.unaryNot (.value 1)))) .postTested
          (.seq [.expr (.value 0)]) := by
  constructor <;> decide

/-- C6 (amended): if a loop is endless and its simplified body is a sequence
whose last element is an `IfElse` whose then-branch is the `Break` sentinel,
the simplifier rewrites it into a post-tested loop whose condition is
`logicalNegate cond` — `UnaryNot(cond)` unless `cond` is itself a `UnaryNot`,
in which case the negation is stripped — and drops the trailing `IfElse` from
the body sequence. -/
theorem recursivelySimplifyLoop_postTested_rewrite
    (cond : Option Expr) (body : Stmt) (ss : List Stmt) (c : Expr)
    (eb : Option Stmt)
    (h1 : recursivelySimplifyStatement body = .seq ss)
    (h2 : ss.getLast? = some (.ifElse c .brk eb)) :
    recursivelySimplifyStatement (.loop cond .endless body) =
      .loop (some (logicalNegate c)) .postTested (.seq ss.dropLast) := by
  simp only [recursivelySimplifyStatement]
  rw [h1]
  simp [h2]

/-- Witness for the amended C6 rewrite at a concrete loop. -/
theorem recursivelySimplifyLoop_postTested_rewrite_witness :
    recursivelySimplifyStatement
        (.loop none .endless
          (.seq [.expr (.value 0), .ifElse (.value 1) .brk none]))
      = .loop (some (.unaryNot (.value 1))) .postTested
          (.seq [.expr (.value 0)]) := by
  exact recursivelySimplifyLoop_postTested_rewrite none _
    [.expr (.value 0), .ifElse (.value 1) .brk none] (.value 1) none
    (by decide) (by decide)

/-- The body shape that triggers the `DoWhile` rewrite in
`recursivelySimplifyLoop`: a sequence whose last element is an `IfElse` whose
then-branch is the `Break` sentinel. -/
def loopRewriteTarget : Stmt → Bool
  | .seq ss =>
      match ss.getLast? with
      | some (.ifElse _ tb _) => tb = Stmt.brk
      | _ => false
  | _ => false

mutual

/-- Fixed points of the recursive simplifier: sequences are non-singleton and
contain no nested sequence, an `IfElse` with an else branch has a non-negated
condition, an `IfElse` without an else branch does not wrap a sole
else-branch-free `IfElse`, and no endless loop body still matches the
`DoWhile` rewrite. -/
def isSimplified : Stmt → Bool
  | .expr _ => true
  | .brk => true
  | .seq ss => (ss.length != 1) && isSimplifiedList ss
  | .ifElse c tb eb =>
      isSimplified tb &&
      (match eb with
       | some e => !(isNegated c) && isSimplified e
       | none => !(isIfElseWithoutElse tb))
  | .loop _ pos b =>
      isSimplified b && !(pos = LoopPos.endless && loopRewriteTarget b)

/-- `isSimplified` over every element of a list, each element moreover not
being a sequence. -/
def isSimplifiedList : List Stmt → Bool
  | [] => true
  | s :: rest => !(isSeqStmt s) && isSimplified s && isSimplifiedList rest

end

mutual

/-- Whether a statement contains no `Loop` node. -/
def loopFree : Stmt → Bool
  | .expr _ => true
  | .brk => true
  | .seq ss => loopFreeList ss
  | .ifElse _ tb eb =>
      loopFree tb && (match eb with | some e => loopFree e | none => true)
  | .loop _ _ _ => false

/-- `loopFree` over every element of a list. -/
def loopFreeList : List Stmt → Bool
  | [] => true
  | s :: rest => loopFree s && loopFreeList rest

end

theorem stripIfElseNegations_of_not_negated (c : Expr) (h : isNegated c = false) :
    stripIfElseNegations c = (c, false) := by
  cases c <;> simp_all [stripIfElseNegations, isNegated]

mutual

theorem loopFree_simplify_isSimplified :
    ∀ s : Stmt, loopFree s = true →
      isSimplified (recursivelySimplifyStatement s) = true
  | .expr _, _ => by simp [recursivelySimplifyStatement, isSimplified]
  | .brk, _ => by simp [recursivelySimplifyStatement, isSimplified]
  | .seq ss, h => by
      simp only [loopFree] at h
      have hl := loopFreeList_simplify_isSimplifiedList ss h
      simp only [recursivelySimplifyStatement]
      split
      · next t heq =>
          rw [heq] at hl
          simp only [isSimplifiedList, Bool.and_eq_true] at hl
          exact hl.1.2
      · next hne =>
          simp only [isSimplified, Bool.and_eq_true]
          refine ⟨?_, hl⟩
          simp only [bne_iff_ne, ne_eq, decide_eq_true_eq]
          intro hlen
          obtain ⟨t, ht⟩ := List.length_eq_one.mp hlen
          exact hne t ht
  | .ifElse c tb (some e), h => by
      simp only [loopFree, Bool.and_eq_true] at h
      have ht := loopFree_simplify_isSimplified tb h.1
      have he := loopFree_simplify_isSimplified e h.2
      have hc := stripIfElseNegations_not_negated c
      simp only [recursivelySimplifyStatement]
      split
      · next c' heq => rw [heq] at hc; simp_all [isSimplified]
      · next c' heq => rw [heq] at hc; simp_all [isSimplified]
  | .ifElse c tb none, h => by
      simp only [loopFree, Bool.and_eq_true] at h
      have ht := loopFree_simplify_isSimplified tb h.1
      simp only [recursivelySimplifyStatement]
      split
      · next c2 tb2 heq =>
          rw [heq] at ht
          simp_all [isSimplified, isIfElseWithoutElse]
      · next hne =>
          simp only [isSimplified, Bool.and_eq_true]
          refine ⟨ht, ?_⟩
          cases hx : recursivelySimplifyStatement tb with
          | ifElse c2 tb2 eb2 =>
              cases eb2 with
              | none => exact absurd hx (hne c2 tb2)
              | some _ => simp [isIfElseWithoutElse]
          | _ => simp [isIfElseWithoutElse]
  | .loop _ _ _, h => by simp [loopFree] at h

theorem loopFreeList_simplify_isSimplifiedList :
    ∀ ss : List Stmt, loopFreeList ss = true →
      isSimplifiedList (recursivelySimplifySequenceList ss) = true
  | [], _ => by simp [recursivelySimplifySequenceList, isSimplifiedList]
  | s :: rest, h => by
      simp only [loopFreeList, Bool.and_eq_true] at h
      have hs := loopFree_simplify_isSimplified s h.1
      have hr := loopFreeList_simplify_isSimplifiedList rest h.2
      simp only [recursivelySimplifySequenceList]
      have append_ok : ∀ l1 l2 : List Stmt, isSimplifiedList l1 = true →
          isSimplifiedList l2 = true → isSimplifiedList (l1 ++ l2) = true := by
        intro l1
        induction l1 with
        | nil => intro l2 _ h2; simpa using h2
        | cons x xs ih =>
            intro l2 h1 h2
            simp only [isSimplifiedList, Bool.and_eq_true] at h1 ⊢
            exact ⟨h1.1, ih l2 h1.2 h2⟩
      refine append_ok _ _ ?_ hr
      split
      · next inner heq =>
          rw [heq] at hs
          simp only [isSimplified, Bool.and_eq_true] at hs
          exact hs.2
      · next t hne =>
          simp only [isSimplifiedList, Bool.and_eq_true]
          refine ⟨⟨?_, hs⟩, by simp [isSimplifiedList]⟩
          cases hx : recursivelySimplifyStatement s with
          | seq inner => exact absurd hx (hne inner)
          | _ => simp [isSeqStmt]

end

mutual

theorem isSimplified_simplify_eq :
    ∀ s : Stmt, isSimplified s = true → recursivelySimplifyStatement s = s
  | .expr _, _ => by simp [recursivelySimplifyStatement]
  | .brk, _ => by simp [recursivelySimplifyStatement]
  | .seq ss, h => by
      simp only [isSimplified, Bool.and_eq_true] at h
      have hl := isSimplifiedList_simplifyList_eq ss h.2
      simp only [recursivelySimplifyStatement]
      rw [hl]
      cases ss with
      | nil => rfl
      | cons a rest =>
          cases rest with
          | nil => simp [List.length] at h
          | cons b rest2 => rfl
  | .ifElse c tb (some e), h => by
      simp only [isSimplified, Bool.and_eq_true] at h
      have ht := isSimplified_simplify_eq tb h.1
      have he := isSimplified_simplify_eq e h.2.2
      have hc : isNegated c = false := by
        have := h.2.1
        cases hx : isNegated c <;> simp_all
      simp only [recursivelySimplifyStatement]
      rw [stripIfElseNegations_of_not_negated c hc]
      simp [ht, he]
  | .ifElse c tb none, h => by
      simp only [isSimplified, Bool.and_eq_true] at h
      have ht := isSimplified_simplify_eq tb h.1
      simp only [recursivelySimplifyStatement]
      rw [ht]
      cases tb with
      | ifElse c2 tb2 eb2 =>
          cases eb2 with
          | none => simp [isIfElseWithoutElse] at h
          | some _ => rfl
      | expr e => rfl
      | seq l => rfl
      | loop a bb cc => rfl
      | brk => rfl
  | .loop cond pos b, h => by
      simp only [isSimplified, Bool.and_eq_true] at h
      have hb := isSimplified_simplify_eq b h.1
      have hrw := h.2
      simp only [recursivelySimplifyStatement]
      rw [hb]
      by_cases hp : pos = LoopPos.endless
      · subst hp
        rw [if_pos rfl]
        cases b with
        | seq ss =>
            cases hlast : ss.getLast? with
            | none => simp [hlast]
            | some lastStmt =>
                cases lastStmt with
                | ifElse c2 tb2 eb2 =>
                    have hne : tb2 ≠ Stmt.brk := by
                      intro hq
                      subst hq
                      simp [loopRewriteTarget, hlast] at hrw
                    simp [hlast, hne]
                | expr e => simp [hlast]
                | seq l2 => simp [hlast]
                | loop a bb cc => simp [hlast]
                | brk => simp [hlast]
        | expr e => simp
        | ifElse a bb cc => simp
        | loop a bb cc => simp
        | brk => simp
      · simp [hp]

theorem isSimplifiedList_simplifyList_eq :
    ∀ ss : List Stmt, isSimplifiedList ss = true →
      recursivelySimplifySequenceList ss = ss
  | [], _ => by simp [recursivelySimplifySequenceList]
  | s :: rest, h => by
      simp only [isSimplifiedList, Bool.and_eq_true] at h
      have hs := isSimplified_simplify_eq s h.1.2
      have hr := isSimplifiedList_simplifyList_eq rest h.2
      simp only [recursivelySimplifySequenceList]
      rw [hs, hr]
      cases s with
      | seq inner => simp [isSeqStmt] at h
      | _ => rfl

end

/-- C8 (counterexample): simplification is not idempotent.  Simplifying the
endless loop `Loop [Expr v0, IfElse(v1, Break)]` produces a post-tested loop
whose body is the singleton sequence `[Expr v0]`; a second simplification pass
collapses that singleton sequence to its sole element, so the second pass does
not return its input unchanged even though the input was itself a simplifier
output. -/
theorem recursivelySimplifyStatement_not_idempotent :
    recursivelySimplifyStatement
        (recursivelySimplifyStatement
          (.loop none .endless
            (.seq [.expr (.value 0), .ifElse (.value 1) .brk none])))
      ≠ recursivelySimplifyStatement
          (.loop none .endless
            (.seq [.expr (.value 0), .ifElse (.value 1) .brk none])) := by
  decide

/-- C8 (amended): the recursive AST simplification is idempotent on every
statement that contains no `Loop` node; the loop `DoWhile` rewrite is the one
step that can leave behind a non-fixed-point (a singleton sequence as the loop
body), as the counterexample shows. -/
theorem recursivelySimplifyStatement_idempotent_loopFree
    (s : Stmt) (h : loopFree s = true) :
    recursivelySimplifyStatement (recursivelySimplifyStatement s) =
      recursivelySimplifyStatement s :=
  isSimplified_simplify_eq _ (loopFree_simplify_isSimplified s h)

/-- Witness for the amended C8 idempotence at a concrete loop-free statement. -/
theorem recursivelySimplifyStatement_idempotent_loopFree_witness :
    loopFree (.ifElse (.unaryNot (.value 0)) .brk (some (.expr (.value 1)))) =
      true ∧
    recursivelySimplifyStatement
        (recursivelySimplifyStatement
          (.ifElse (.unaryNot (.value 0)) .brk (some (.expr (.value 1)))))
      = recursivelySimplifyStatement
          (.ifElse (.unaryNot (.value 0)) .brk (some (.expr (.value 1)))) :=
  ⟨by decide, recursivelySimplifyStatement_idempotent_loopFree _ (by decide)⟩

/-- `coalesce` (program_output.cpp:176-189): combine two optional expressions
with a binary operator, returning the other one when either is absent. -/
def coalesce (op : BinaryOp) (l r : Option Expr) : Option Expr :=
  match l with
  | none => r
  | some lv =>
      match r with
      | none => some lv
      | some rv => some (.binOp op lv rv)

/-- `collapse` (program_output.cpp:191-199): fold a term list into one
expression with `coalesce`; an empty list yields no expression (the source
returns a null pointer). -/
def collapse (terms : List Expr) (joint : BinaryOp) : Option Expr :=
  terms.foldl (fun result e => coalesce joint result (some e)) none

/-- `expandToProductOfSums` (program_output.cpp:201-221): Cartesian expansion
of the remaining rows of a sum of products.  When no rows remain, the current
stack is emitted as one sum; otherwise each expression of the first row is
pushed on the stack in turn and the remaining rows are expanded recursively. -/
def expandToProductOfSums (rows : List (List Expr)) (stack : List Expr) :
    List (List Expr) :=
  match rows with
  | [] => [stack]
  | row :: rest => (row.map fun e => expandToProductOfSums rest (stack ++ [e])).flatten

/-- Erasure of the first reference-equal occurrence of a term from a product,
as done through the `find_if` iterators stored in `termLocations`
(program_output.cpp:250-276). -/
def eraseFirst : List Expr → Expr → List Expr
  | [], _ => []
  | x :: xs, t => if x.isReferenceEqual t then xs else x :: eraseFirst xs t

/-- Step 1 of `simplifySumOfProducts` (program_output.cpp:241-282), the
common-term factoring loop over the first product: a term that has a
reference-equal occurrence in every other product is isolated as a singleton
sum and its first occurrence erased from every product; other terms are kept.
Returns the remaining first product, the remaining other products, and the
isolated singleton sums in isolation order. -/
def factorTerms : List Expr → List (List Expr) →
    List Expr × List (List Expr) × List (List Expr)
  | [], others => ([], others, [])
  | t :: rest, others =>
      if others.all fun p => p.any fun that => that.isReferenceEqual t then
        let others' := others.map fun p => eraseFirst p t
        let (first', others'', isolated) := factorTerms rest others'
        (first', others'', [t] :: isolated)
      else
        let (first', others'', isolated) := factorTerms rest others
        (t :: first', others'', isolated)

/-- The partner sought by step 3 of `simplifySumOfProducts`
(program_output.cpp:316-340): for `UnaryNot(x)` the sum is searched for `x`
(the source asserts that every unary operator there is `LogicalNegate`), and
for any other expression `e` it is searched for a `UnaryNot` whose operand is
reference-equal to `e`. -/
def contradictionPartner : Expr → Expr
  | .unaryNot x => x
  | e => .unaryNot e

/-- Step 3 of `simplifySumOfProducts` (program_output.cpp:310-353): walk the
sum; whenever the suffix after the current element contains the element's
contradiction partner, delete every occurrence of the element and of the
partner from the rest of the sum and continue from the same position (the
source's two `std::remove` calls; on this model expression identity is
structural, matching `isReferenceEqual`).  The fuel argument bounds the loop;
the sum shrinks at every firing step, so the sum's length is enough fuel. -/
def removeContradictions : Nat → List Expr → List Expr
  | 0, sum => sum
  | _ + 1, [] => []
  | fuel + 1, e :: rest =>
      let comp := contradictionPartner e
      if rest.any fun that => that.isReferenceEqual comp then
        removeContradictions fuel
          ((rest.filter fun x => !x.isReferenceEqual comp).filter
            fun x => !x.isReferenceEqual e)
      else e :: removeContradictions fuel rest

/-- `simplifySumOfProducts` (program_output.cpp:223-367).  An empty input is
returned unchanged.  For more than one product, step 1 factors common terms
into isolated singleton sums and erases products that became empty; step 2
expands the surviving products into a product of sums rooted at each term of
the first surviving product; step 3 deletes reference-equal contradiction
pairs within each sum and drops sums that became empty.  When every product
was erased by step 1, the source reads `sumOfProducts.front()` on an empty
vector (undefined behavior, an assertion failure in `SmallVector`); this model
returns `none` there. -/
def simplifySumOfProducts (sumOfProducts : List (List Expr)) :
    Option (List (List Expr)) :=
  match sumOfProducts with
  | [] => some []
  | p :: rest =>
      let (surviving, isolated) :=
        if rest.isEmpty then (p :: rest, ([] : List (List Expr)))
        else
          let (first', others', iso) := factorTerms p rest
          ((first' :: others').filter fun q => !q.isEmpty, iso)
      match surviving with
      | [] => none
      | f :: more =>
          let expanded := (f.map fun e => expandToProductOfSums more [e]).flatten
          let sums :=
            (isolated ++ expanded).map fun s => removeContradictions s.length s
          some (sums.filter fun s => !s.isEmpty)

/-- Distribution of a product of sums back to a sum of products (disjunctive
normal form), as in the round-trip law of spec §8: one term is chosen from
each sum and the choices are conjoined, over all possible choices. -/
def distributeToSumOfProducts (productOfSums : List (List Expr)) :
    List (List Expr) :=
  match productOfSums with
  | [] => [[]]
  | sum :: rest =>
      (sum.map fun e => (distributeToSumOfProducts rest).map fun p => e :: p).flatten

/-- Truth-value of an expression under an assignment to the IR values behind
the atomic `Value` predicates. -/
def evalExpr (σ : Nat → Bool) : Expr → Bool
  | .value v => σ v
  | .unaryNot e => !evalExpr σ e
  | .binOp .shortCircuitAnd l r => evalExpr σ l && evalExpr σ r
  | .binOp .shortCircuitOr l r => evalExpr σ l || evalExpr σ r

/-- Truth-value of a product (conjunction) of expressions. -/
def evalProduct (σ : Nat → Bool) (p : List Expr) : Bool := p.all (evalExpr σ)

/-- Truth-value of a sum of products (disjunctive normal form). -/
def evalSumOfProducts (σ : Nat → Bool) (sop : List (List Expr)) : Bool :=
  sop.any (evalProduct σ)

/-- C3 (code evaluated at the failing input): converting the sum of products
`v0 ∨ (v0 ∧ v1)` to a product of sums and distributing back to disjunctive
normal form does not preserve the Boolean function.  Factoring isolates `v0`,
the first product becomes empty and is erased — losing the fact that the
region is reached unconditionally on the `v0` path — and the result is
`v0 ∧ v1`: under the assignment `v0 ↦ true, v1 ↦ false` the input evaluates
to `true` but the round-tripped output evaluates to `false`. -/
theorem simplifySumOfProducts_roundTrip_failing_input :
    simplifySumOfProducts [[Expr.value 0], [Expr.value 0, Expr.value 1]] =
      some [[Expr.value 0], [Expr.value 1]] ∧
    evalSumOfProducts (fun v => v == 0)
        [[Expr.value 0], [Expr.value 0, Expr.value 1]] = true ∧
    evalSumOfProducts (fun v => v == 0)
        (distributeToSumOfProducts [[Expr.value 0], [Expr.value 1]]) = false := by
  decide

/-- C10 (code evaluated at the failing input): on the two-product input
`[[v0], [v0]]`, whose products' terms are pairwise reference-equal,
common-term factoring erases the shared term from every product and then
drops every product as empty, so no product survives step 1 and the
Cartesian-expansion step reads the first element of the empty product list
(`sumOfProducts.front()` on an empty `SmallVector`, modelled as `none`) —
contradicting the claim that at least one product always remains. -/
theorem simplifySumOfProducts_empty_residue_failing_input :
    (((factorTerms [Expr.value 0] [[Expr.value 0]]).1 ::
        (factorTerms [Expr.value 0] [[Expr.value 0]]).2.1).filter
          fun q => !q.isEmpty) = [] ∧
    simplifySumOfProducts [[Expr.value 0], [Expr.value 0]] = none := by
  decide

/-- Kinds of LLVM instructions that matter to `addBasicBlock`: branches and
switches are filtered out; `ret` stands for the other terminators; `other` is
any non-terminator instruction. -/
inductive InstKind where
  | branch
  | switchInst
  | ret
  | other
deriving DecidableEq, Repr

/-- An IR instruction: its identity as an IR value (used to build
`ValueExpression`s) and its kind. -/
structure Inst where
  id : Nat
  kind : InstKind
deriving DecidableEq, Repr

/-- Whether an instruction is a `BranchInst`. -/
def isBranchInst (i : Inst) : Bool := i.kind = InstKind.branch

/-- Whether an instruction is a `SwitchInst`. -/
def isSwitchInst (i : Inst) : Bool := i.kind = InstKind.switchInst

/-- Whether an instruction is a block terminator (branch, switch or ret on
this model). -/
def isTerminatorInst (i : Inst) : Bool :=
  i.kind = InstKind.branch || i.kind = InstKind.switchInst ||
    i.kind = InstKind.ret

/-- A `Statement*`: the arena allocation identity together with the statement
value it points to.  Distinct calls to the arena yield distinct identities
even for structurally identical statements. -/
structure StmtRef where
  id : Nat
  val : Stmt
deriving DecidableEq, Repr

/-- An `AstGraphNode` (ast_grapher.cpp:80-84): the statement, the entry block
and the exit block.  `addBasicBlock` registers leaves with `exit = entry`;
`updateRegion` registers folded regions whose exit may differ or be null. -/
structure GraphNodeM where
  node : StmtRef
  entry : Nat
  exit : Option Nat
deriving DecidableEq, Repr

/-- Modelled from the spec (`ast_grapher.h` is not among the sources): a node
has a distinct exit — `hasExit()` — iff its exit block differs from its entry
block, which is the case exactly for already-folded regions. -/
def GraphNodeM.hasExit (n : GraphNodeM) : Bool := !(n.exit == some n.entry)

/-- The `AstGrapher` state (ast_grapher.cpp:86-117): the arena allocation
counter, the stable node storage, and the two indices
`entry block → statement` and `statement → graph node`.  The indices are
association lists whose most recent binding shadows older ones, matching
`operator[]` assignment on the `unordered_map`s. -/
structure AstGrapherM where
  nextId : Nat
  nodeStorage : List GraphNodeM
  nodeByEntry : List (Nat × StmtRef)
  graphNodeByAstNode : List (Nat × GraphNodeM)
deriving DecidableEq, Repr

/-- A fresh grapher, as built by `AstGrapher::AstGrapher` on a fresh arena. -/
def AstGrapherM.empty : AstGrapherM := ⟨0, [], [], []⟩

/-- The statement list built by the instruction loop of
`AstGrapher::addBasicBlock` (ast_grapher.cpp:95-104): walk the block's
instructions in order and push one `ExpressionNode` wrapping the
instruction's value for every instruction that is neither a `BranchInst` nor
a `SwitchInst`. -/
def addBasicBlockStatements (insts : List Inst) : List Stmt :=
  insts.foldl
    (fun acc i =>
      if !isBranchInst i && !isSwitchInst i then
        acc ++ [Stmt.expr (Expr.value i.id)]
      else acc)
    []

/-- `AstGrapher::addBasicBlock` (ast_grapher.cpp:92-110): allocate a
`SequenceNode`, fill it with one expression statement per non-branch,
non-switch instruction (each costing a `ValueExpression` and an
`ExpressionNode` allocation), append a leaf graph node with
`entry = exit = bb` to the storage, and point both indices at the new node.
Returns the new statement. -/
def addBasicBlock (g : AstGrapherM) (bb : Nat) (insts : List Inst) :
    StmtRef × AstGrapherM :=
  let children := addBasicBlockStatements insts
  let ref : StmtRef := ⟨g.nextId, Stmt.seq children⟩
  let node : GraphNodeM := ⟨ref, bb, some bb⟩
  (ref,
   { nextId := g.nextId + 1 + 2 * children.length,
     nodeStorage := g.nodeStorage ++ [node],
     nodeByEntry := (bb, ref) :: g.nodeByEntry,
     graphNodeByAstNode := (ref.id, node) :: g.graphNodeByAstNode })

/-- `AstGrapher::updateRegion` (ast_grapher.cpp:112-117): append a graph node
for the folded region and redirect both indices to the new statement; the old
node stays in storage. -/
def updateRegion (g : AstGrapherM) (entry : Nat) (exit : Option Nat)
    (node : StmtRef) : AstGrapherM :=
  let gn : GraphNodeM := ⟨node, entry, exit⟩
  { g with
      nodeStorage := g.nodeStorage ++ [gn],
      nodeByEntry := (entry, node) :: g.nodeByEntry,
      graphNodeByAstNode := (node.id, gn) :: g.graphNodeByAstNode }

/-- `AstGrapher::getGraphNode` (ast_grapher.cpp:119-128): index lookup by
statement identity. -/
def getGraphNode (g : AstGrapherM) (sid : Nat) : Option GraphNodeM :=
  (g.graphNodeByAstNode.find? fun p => p.1 == sid).map Prod.snd

/-- `AstGrapher::getGraphNodeFromEntry` (ast_grapher.cpp:130-139): resolve the
entry block to its current statement and then to that statement's graph node;
the null block is bound by no index entry. -/
def getGraphNodeFromEntry (g : AstGrapherM) (bb : Option Nat) :
    Option GraphNodeM :=
  match bb with
  | none => none
  | some b =>
      match g.nodeByEntry.find? fun p => p.1 == b with
      | some (_, ref) => getGraphNode g ref.id
      | none => none

/-- The sequence the spec's words describe for `addBasicBlock`: one
`Expression` statement per non-terminator instruction of the block, every
terminator contributing no child. -/
def specBasicBlockStatements (insts : List Inst) : List Stmt :=
  (insts.filter fun i => !isTerminatorInst i).map fun i =>
    Stmt.expr (Expr.value i.id)

/-- C4 (counterexample): re-adding a basic block is not idempotent.  Adding
block `0` twice to a fresh grapher returns a second statement distinct from
the first (a fresh arena allocation) and grows the node storage from one to
two nodes instead of leaving it unchanged. -/
theorem addBasicBlock_readd_counterexample :
    (addBasicBlock (addBasicBlock AstGrapherM.empty 0 []).2 0 []).1 ≠
      (addBasicBlock AstGrapherM.empty 0 []).1 ∧
    (addBasicBlock (addBasicBlock AstGrapherM.empty 0 []).2 0 []).2.nodeStorage
      ≠ (addBasicBlock AstGrapherM.empty 0 []).2.nodeStorage := by
  decide

/-- C4 (amended): re-adding a basic block registers a fresh node rather than
returning the existing one: the second call returns a statement with the same
structure but a fresh allocation identity, appends one more leaf graph node to
the storage, and redirects the entry index to the new statement. -/
theorem addBasicBlock_readd
    (g : AstGrapherM) (bb : Nat) (insts : List Inst) :
    ((addBasicBlock (addBasicBlock g bb insts).2 bb insts).1.val =
        (addBasicBlock g bb insts).1.val) ∧
    ((addBasicBlock (addBasicBlock g bb insts).2 bb insts).1.id ≠
        (addBasicBlock g bb insts).1.id) ∧
    ((addBasicBlock (addBasicBlock g bb insts).2 bb insts).2.nodeStorage =
        (addBasicBlock g bb insts).2.nodeStorage ++
          [⟨(addBasicBlock (addBasicBlock g bb insts).2 bb insts).1, bb,
            some bb⟩]) ∧
    ((addBasicBlock (addBasicBlock g bb insts).2 bb insts).2.nodeByEntry.find?
          fun p => p.1 == bb) =
      some (bb, (addBasicBlock (addBasicBlock g bb insts).2 bb insts).1) := by
  refine ⟨rfl, ?_, rfl, by simp [addBasicBlock]⟩
  simp [addBasicBlock]
  omega

/-- C5 (counterexample): on a block whose instructions are one non-terminator
and a `ret` terminator, `addBasicBlock` wraps the `ret` as an expression
statement too, so the sequence differs from the spec's one-expression-per-
non-terminator-instruction description. -/
theorem addBasicBlock_ret_counterexample :
    (addBasicBlock AstGrapherM.empty 0
          [⟨0, InstKind.other⟩, ⟨1, InstKind.ret⟩]).1.val =
      Stmt.seq [.expr (.value 0), .expr (.value 1)] ∧
    (addBasicBlock AstGrapherM.empty 0
          [⟨0, InstKind.other⟩, ⟨1, InstKind.ret⟩]).1.val ≠
      Stmt.seq (specBasicBlockStatements
        [⟨0, InstKind.other⟩, ⟨1, InstKind.ret⟩]) := by
  decide

/-- C5 (amended): `addBasicBlock` returns a `Sequence` containing, in
instruction order, exactly one expression statement wrapping the value of
each instruction that is neither a branch nor a switch; branch and switch
instructions contribute no child, but other terminators (such as `ret`) do. -/
theorem addBasicBlock_val_eq (g : AstGrapherM) (bb : Nat)
    (insts : List Inst) :
    (addBasicBlock g bb insts).1.val =
      Stmt.seq ((insts.filter fun i => !isBranchInst i && !isSwitchInst i).map
        fun i => Stmt.expr (Expr.value i.id)) := by
  have gen : ∀ (l : List Inst) (acc : List Stmt),
      l.foldl
          (fun acc i =>
            if !isBranchInst i && !isSwitchInst i then
              acc ++ [Stmt.expr (Expr.value i.id)]
            else acc)
          acc =
        acc ++ ((l.filter fun i => !isBranchInst i && !isSwitchInst i).map
          fun i => Stmt.expr (Expr.value i.id)) := by
    intro l
    induction l with
    | nil => simp
    | cons i rest ih =>
        intro acc
        rw [List.foldl_cons]
        by_cases hi : (!isBranchInst i && !isSwitchInst i) = true
        · rw [if_pos hi, ih]
          simp [List.filter_cons, hi]
        · rw [if_neg hi, ih]
          rw [Bool.not_eq_true] at hi
          simp [List.filter_cons, hi]
  show Stmt.seq (addBasicBlockStatements insts) = _
  rw [addBasicBlockStatements, gen insts []]
  simp

/-- The per-block check of `AstBackEnd::isRegion` (program_output.cpp:760):
`entry` must dominate the block and, unless `exit` is null — the virtual
end-of-function sink, treated as post-dominating everything — `exit` must
post-dominate it.  The dominator analyses are consumed as oracles. -/
def regionOk (dominates postDominates : Nat → Nat → Bool) (entry : Nat)
    (exit : Option Nat) (bb : Nat) : Bool :=
  dominates entry bb &&
    (match exit with
     | none => true
     | some e => postDominates e bb)

/-- The successor-insertion loop of `AstBackEnd::isRegion`
(program_output.cpp:764-770): insert each successor into the frontier unless
it is already in the visited set or already in the frontier (the source's
`unordered_set` deduplicates insertions). -/
def insertNewSuccs (visited toVisit succs : List Nat) : List Nat :=
  succs.foldl
    (fun acc s => if s ∈ visited ∨ s ∈ acc then acc else acc ++ [s]) toVisit

/-- The frontier loop of `AstBackEnd::isRegion` (program_output.cpp:751-778):
take a block off the frontier; if it fails the dominance check, answer
`false` at once; otherwise move it to the visited set, insert its unvisited
successors, and continue; answer `true` when the frontier empties.  The fuel
argument bounds the number of iterations; every iteration moves one new block
into the visited set, so any fuel beyond the number of blocks is enough. -/
def isRegionGo (succ : Nat → List Nat) (ok : Nat → Bool) :
    Nat → List Nat → List Nat → Bool
  | _, [], _ => true
  | 0, _ :: _, _ => false
  | fuel + 1, bb :: toVisit, visited =>
      if ok bb then
        isRegionGo succ ok fuel
          (insertNewSuccs (bb :: visited) toVisit (succ bb)) (bb :: visited)
      else false

/-- `AstBackEnd::isRegion` (program_output.cpp:729-779): frontier search from
`entry` with the visited set seeded with `exit` (seeding with the null exit
adds nothing, since successors are never null). -/
def isRegion (succ : Nat → List Nat)
    (dominates postDominates : Nat → Nat → Bool) (fuel entry : Nat)
    (exit : Option Nat) : Bool :=
  isRegionGo succ (regionOk dominates postDominates entry exit) fuel [entry]
    exit.toList

/-- Reachability from `entry` without crossing `exit`: the blocks reached by
paths that start at `entry` and never step onto `exit`.  (`entry` itself is
always reached; `exit` is excluded from every later step, so the interval is
half-open.) -/
inductive ReachAvoid (succ : Nat → List Nat) (exit : Option Nat)
    (entry : Nat) : Nat → Prop
  | refl : ReachAvoid succ exit entry entry
  | step {a b : Nat} : ReachAvoid succ exit entry a → b ∈ succ a →
      some b ≠ exit → ReachAvoid succ exit entry b

theorem mem_insertNewSuccs (visited succs : List Nat) :
    ∀ (toVisit : List Nat) (x : Nat),
      x ∈ insertNewSuccs visited toVisit succs ↔
        x ∈ toVisit ∨ (x ∈ succs ∧ x ∉ visited) := by
  induction succs with
  | nil => intro toVisit x; simp [insertNewSuccs]
  | cons s ss ih =>
      intro toVisit x
      simp only [insertNewSuccs, List.foldl_cons]
      by_cases hs : s ∈ visited ∨ s ∈ toVisit
      · rw [if_pos hs]
        rw [show (List.foldl
            (fun acc s => if s ∈ visited ∨ s ∈ acc then acc else acc ++ [s])
            toVisit ss) = insertNewSuccs visited toVisit ss from rfl, ih]
        constructor
        · rintro (h | ⟨h1, h2⟩)
          · exact Or.inl h
          · exact Or.inr ⟨List.mem_cons_of_mem _ h1, h2⟩
        · rintro (h | ⟨h1, h2⟩)
          · exact Or.inl h
          · rcases List.mem_cons.mp h1 with rfl | h1'
            · rcases hs with hv | htv
              · exact absurd hv h2
              · exact Or.inl htv
            · exact Or.inr ⟨h1', h2⟩
      · rw [if_neg hs]
        rw [show (List.foldl
            (fun acc s => if s ∈ visited ∨ s ∈ acc then acc else acc ++ [s])
            (toVisit ++ [s]) ss) =
          insertNewSuccs visited (toVisit ++ [s]) ss from rfl, ih]
        push_neg at hs
        constructor
        · rintro (h | ⟨h1, h2⟩)
          · rcases List.mem_append.mp h with h' | h'
            · exact Or.inl h'
            · rcases List.mem_singleton.mp h' with rfl
              exact Or.inr ⟨List.mem_cons_self _ _, hs.1⟩
          · exact Or.inr ⟨List.mem_cons_of_mem _ h1, h2⟩
        · rintro (h | ⟨h1, h2⟩)
          · exact Or.inl (List.mem_append.mpr (Or.inl h))
          · rcases List.mem_cons.mp h1 with rfl | h1'
            · exact Or.inl (List.mem_append.mpr (Or.inr (List.mem_singleton.mpr rfl)))
            · exact Or.inr ⟨h1', h2⟩

theorem insertNewSuccs_nodup (visited succs : List Nat) :
    ∀ toVisit : List Nat, toVisit.Nodup →
      (insertNewSuccs visited toVisit succs).Nodup := by
  induction succs with
  | nil => intro toVisit h; exact h
  | cons s ss ih =>
      intro toVisit h
      simp only [insertNewSuccs, List.foldl_cons]
      by_cases hs : s ∈ visited ∨ s ∈ toVisit
      · rw [if_pos hs]; exact ih toVisit h
      · rw [if_neg hs]
        push_neg at hs
        refine ih (toVisit ++ [s]) ?_
        rw [List.nodup_append]
        refine ⟨h, List.nodup_singleton s, ?_⟩
        intro a ha hb
        rcases List.mem_singleton.mp hb with rfl
        exact hs.2 ha

theorem length_le_of_nodup_lt (l : List Nat) (n : Nat) (hn : l.Nodup)
    (hlt : ∀ x ∈ l, x < n) : l.length ≤ n := by
  have h1 : l.toFinset.card = l.length := List.toFinset_card_of_nodup hn
  have h2 : l.toFinset ⊆ Finset.range n := by
    intro x hx
    simp only [List.mem_toFinset] at hx
    simpa using hlt x hx
  have h3 := Finset.card_le_card h2
  rw [h1, Finset.card_range] at h3
  exact h3

theorem reachAvoid_all_ok_of_closed (succ : Nat → List Nat)
    (exit : Option Nat) (entry : Nat) (ok : Nat → Bool) (proc : List Nat)
    (h2 : ∀ x ∈ proc, ReachAvoid succ exit entry x ∧ ok x = true)
    (h3 : ∀ x ∈ proc, ∀ s ∈ succ x, some s ≠ exit → s ∈ proc)
    (h4 : entry ∈ proc) :
    ∀ b, ReachAvoid succ exit entry b → ok b = true := by
  have hmem : ∀ b, ReachAvoid succ exit entry b → b ∈ proc := by
    intro b hb
    induction hb with
    | refl => exact h4
    | step _ hs hne ih => exact h3 _ ih _ hs hne
  intro b hb
  exact (h2 b (hmem b hb)).2

theorem isRegionGo_iff (succ : Nat → List Nat) (exit : Option Nat)
    (entry : Nat) (ok : Nat → Bool) (n : Nat)
    (hsucc : ∀ a b, b ∈ succ a → b < n) :
    ∀ fuel toVisit proc,
      (∀ x ∈ toVisit, ReachAvoid succ exit entry x) →
      (∀ x ∈ proc, ReachAvoid succ exit entry x ∧ ok x = true) →
      (∀ x ∈ proc, ∀ s ∈ succ x, some s ≠ exit → s ∈ proc ∨ s ∈ toVisit) →
      (entry ∈ proc ∨ entry ∈ toVisit) →
      (toVisit ++ proc).Nodup →
      (∀ x ∈ toVisit, x < n) →
      (∀ x ∈ proc, x < n) →
      n + 1 ≤ fuel + proc.length →
      (isRegionGo succ ok fuel toVisit (proc ++ exit.toList) = true ↔
        ∀ b, ReachAvoid succ exit entry b → ok b = true) := by
  intro fuel
  induction fuel with
  | zero =>
      intro toVisit proc h1 h2 h3 h4 h5 h6 h7 hfuel
      cases toVisit with
      | nil =>
          simp only [isRegionGo, true_iff]
          refine reachAvoid_all_ok_of_closed succ exit entry ok proc h2 ?_ ?_
          · intro x hx s hs hne
            rcases h3 x hx s hs hne with h | h
            · exact h
            · exact absurd h (List.not_mem_nil s)
          · rcases h4 with h | h
            · exact h
            · exact absurd h (List.not_mem_nil entry)
      | cons bb rest =>
          exfalso
          have hnodup : proc.Nodup := ((List.nodup_append.mp h5).2).1
          have hle := length_le_of_nodup_lt proc n hnodup h7
          omega
  | succ fuel ih =>
      intro toVisit proc h1 h2 h3 h4 h5 h6 h7 hfuel
      cases toVisit with
      | nil =>
          simp only [isRegionGo, true_iff]
          refine reachAvoid_all_ok_of_closed succ exit entry ok proc h2 ?_ ?_
          · intro x hx s hs hne
            rcases h3 x hx s hs hne with h | h
            · exact h
            · exact absurd h (List.not_mem_nil s)
          · rcases h4 with h | h
            · exact h
            · exact absurd h (List.not_mem_nil entry)
      | cons bb rest =>
          have hbbR : ReachAvoid succ exit entry bb :=
            h1 bb (List.mem_cons_self _ _)
          have hsplit := List.nodup_append.mp h5
          have hbbrest : bb ∉ rest := (List.nodup_cons.mp hsplit.1).1
          have hrestnodup : rest.Nodup := (List.nodup_cons.mp hsplit.1).2
          have hprocnodup : proc.Nodup := hsplit.2.1
          have hdisj := hsplit.2.2
          have hbbproc : bb ∉ proc := fun hmem =>
            hdisj (List.mem_cons_self _ _) hmem
          simp only [isRegionGo]
          by_cases hok : ok bb = true
          · rw [if_pos hok]
            have hvis : bb :: (proc ++ exit.toList) =
                (bb :: proc) ++ exit.toList := rfl
            rw [hvis]
            refine ih (insertNewSuccs ((bb :: proc) ++ exit.toList) rest
              (succ bb)) (bb :: proc) ?_ ?_ ?_ ?_ ?_ ?_ ?_ ?_
            · intro x hx
              rcases (mem_insertNewSuccs _ _ _ _).mp hx with h | ⟨hxs, hxv⟩
              · exact h1 x (List.mem_cons_of_mem _ h)
              · refine ReachAvoid.step hbbR hxs ?_
                cases hexit : exit with
                | none => simp
                | some e =>
                    intro hcontra
                    apply hxv
                    apply List.mem_append.mpr
                    right
                    rw [hexit]
                    simp only [Option.toList_some, List.mem_singleton]
                    exact Option.some_injective _ hcontra
            · intro x hx
              rcases List.mem_cons.mp hx with rfl | hx'
              · exact ⟨hbbR, hok⟩
              · exact h2 x hx'
            · intro x hx s hs hne
              rcases List.mem_cons.mp hx with rfl | hx'
              · by_cases hsv : s ∈ (x :: proc) ++ exit.toList
                · rcases List.mem_append.mp hsv with h | h
                  · exact Or.inl h
                  · exfalso
                    apply hne
                    cases hexit : exit with
                    | none => rw [hexit] at h; simp at h
                    | some e =>
                        rw [hexit] at h
                        simp only [Option.toList_some, List.mem_singleton] at h
                        rw [h]
                · exact Or.inr ((mem_insertNewSuccs _ _ _ _).mpr
                    (Or.inr ⟨hs, hsv⟩))
              · rcases h3 x hx' s hs hne with h | h
                · exact Or.inl (List.mem_cons_of_mem _ h)
                · rcases List.mem_cons.mp h with rfl | h'
                  · exact Or.inl (List.mem_cons_self _ _)
                  · exact Or.inr ((mem_insertNewSuccs _ _ _ _).mpr (Or.inl h'))
            · rcases h4 with h | h
              · exact Or.inl (List.mem_cons_of_mem _ h)
              · rcases List.mem_cons.mp h with rfl | h'
                · exact Or.inl (List.mem_cons_self _ _)
                · exact Or.inr ((mem_insertNewSuccs _ _ _ _).mpr (Or.inl h'))
            · rw [List.nodup_append]
              refine ⟨insertNewSuccs_nodup _ _ rest hrestnodup, ?_, ?_⟩
              · exact List.nodup_cons.mpr ⟨hbbproc, hprocnodup⟩
              · intro a ha hb
                rcases (mem_insertNewSuccs _ _ _ _).mp ha with h | ⟨_, hav⟩
                · rcases List.mem_cons.mp hb with rfl | hb'
                  · exact hbbrest h
                  · exact hdisj (List.mem_cons_of_mem _ h) hb'
                · exact hav (List.mem_append.mpr (Or.inl hb))
            · intro x hx
              rcases (mem_insertNewSuccs _ _ _ _).mp hx with h | ⟨hxs, _⟩
              · exact h6 x (List.mem_cons_of_mem _ h)
              · exact hsucc bb x hxs
            · intro x hx
              rcases List.mem_cons.mp hx with rfl | hx'
              · exact h6 x (List.mem_cons_self _ _)
              · exact h7 x hx'
            · simp only [List.length_cons]
              omega
          · rw [if_neg hok]
            simp only [Bool.false_eq_true, false_iff]
            intro hall
            exact hok (hall bb hbbR)

theorem regionOk_eq_true (dominates postDominates : Nat → Nat → Bool)
    (entry : Nat) (exit : Option Nat) (b : Nat) :
    regionOk dominates postDominates entry exit b = true ↔
      dominates entry b = true ∧
        ∀ e, exit = some e → postDominates e b = true := by
  cases exit <;> simp [regionOk]

/-- C1: for every pair of basic blocks `(entry, exit)` of a function whose
blocks are numbered below `n` (with `exit` possibly null and enough fuel for
the frontier loop), `isRegion entry exit` returns `true` iff every block
reachable from `entry` without crossing `exit` is dominated by `entry` and,
when `exit` is non-null, post-dominated by `exit`; a null `exit` — the
virtual end-of-function sink — is treated as post-dominating every block, and
`exit` itself is excluded from the region. -/
theorem isRegion_iff_reachAvoid_dominated (succ : Nat → List Nat)
    (dominates postDominates : Nat → Nat → Bool) (n fuel entry : Nat)
    (exit : Option Nat) (hentry : entry < n)
    (hsucc : ∀ a b, b ∈ succ a → b < n) (hfuel : n + 1 ≤ fuel) :
    isRegion succ dominates postDominates fuel entry exit = true ↔
      ∀ b, ReachAvoid succ exit entry b →
        dominates entry b = true ∧
          ∀ e, exit = some e → postDominates e b = true := by
  have hmain := isRegionGo_iff succ exit entry
      (regionOk dominates postDominates entry exit) n hsucc fuel [entry] []
      (by
        intro x hx
        rcases List.mem_singleton.mp hx with rfl
        exact ReachAvoid.refl)
      (by intro x hx; exact absurd hx (List.not_mem_nil x))
      (by intro x hx; exact absurd hx (List.not_mem_nil x))
      (Or.inr (List.mem_singleton.mpr rfl))
      (by simp)
      (by
        intro x hx
        rcases List.mem_singleton.mp hx with rfl
        exact hentry)
      (by intro x hx; exact absurd hx (List.not_mem_nil x))
      (by simpa using hfuel)
  rw [show isRegion succ dominates postDominates fuel entry exit =
      isRegionGo succ (regionOk dominates postDominates entry exit) fuel
        [entry] ([] ++ exit.toList) from rfl]
  rw [hmain]
  exact forall_congr' fun b => imp_congr_right fun _ =>
    regionOk_eq_true dominates postDominates entry exit b

/-- Witness for C1 on the two-block path graph `0 → 1` with everything
dominated: the region check succeeds. -/
theorem isRegion_iff_reachAvoid_dominated_witness :
    isRegion (fun a => if a = 0 then [1] else []) (fun _ _ => true)
      (fun _ _ => true) 3 0 none = true :=
  (isRegion_iff_reachAvoid_dominated (fun a => if a = 0 then [1] else [])
      (fun _ _ => true) (fun _ _ => true) 2 3 0 none (by decide)
      (by
        intro a b hb
        by_cases ha : a = 0
        · simp [ha] at hb
          omega
        · simp [ha] at hb)
      (by decide)).mpr
    (fun b _ => ⟨rfl, fun e he => nomatch he⟩)

/-- The terminator of a basic block, as inspected by `ReachingConditions::build`
(program_output.cpp:95-115): a conditional branch carrying its IR condition
value and two successors, an unconditional branch, or any other terminator
(no recursion happens there). -/
inductive Terminator where
  | condBr (cond succ0 succ1 : Nat)
  | br (succ0 : Nat)
  | other
deriving DecidableEq, Repr

/-- Recording one reaching product: `conditions[currentNode->node].push_back(conditionStack)`
(program_output.cpp:86). -/
def recordCondition (conds : Nat → List (List Expr)) (key : Nat)
    (product : List Expr) : Nat → List (List Expr) :=
  fun k => if k = key then conds k ++ [product] else conds k

/-- `ReachingConditions::build` (program_output.cpp:77-118).  The walk stops
at nodes already on the visit stack (back edges and the pre-seeded region
exit).  A node with a distinct exit — an already-folded region — is traversed
into the node resolved from that exit with the condition stack unchanged.
Otherwise the entry block's terminator is inspected: a conditional branch
pushes `Value(cond)` for successor 0 and `UnaryNot(Value(cond))` for
successor 1 (each popped after the recursive call, i.e. the recursion gets
the extended stack and the caller keeps its own); an unconditional branch
recurses with the stack unchanged.  The source would dereference a null node
pointer not already on the visit stack; that situation is modelled as leaving
the map unchanged and does not arise in the driver, where the only
unresolvable block is the region exit, which is pre-seeded.  The fuel bounds
the recursion depth; the visit stack grows at every level, so any fuel beyond
the node count is enough. -/
def buildReachingConditions (g : AstGrapherM) (term : Nat → Terminator) :
    Nat → Option GraphNodeM → List Expr → List (Option GraphNodeM) →
    (Nat → List (List Expr)) → Nat → List (List Expr)
  | 0, _, _, _, conds => conds
  | fuel + 1, currentNode, conditionStack, visitStack, conds =>
      if currentNode ∈ visitStack then conds
      else
        match currentNode with
        | none => conds
        | some node =>
            let visitStack' := visitStack ++ [currentNode]
            let conds' := recordCondition conds node.node.id conditionStack
            if node.hasExit then
              buildReachingConditions g term fuel
                (getGraphNodeFromEntry g node.exit) conditionStack
                visitStack' conds'
            else
              match term node.entry with
              | .condBr c s0 s1 =>
                  buildReachingConditions g term fuel
                    (getGraphNodeFromEntry g (some s1))
                    (conditionStack ++ [Expr.unaryNot (Expr.value c)])
                    visitStack'
                    (buildReachingConditions g term fuel
                      (getGraphNodeFromEntry g (some s0))
                      (conditionStack ++ [Expr.value c]) visitStack' conds')
              | .br s0 =>
                  buildReachingConditions g term fuel
                    (getGraphNodeFromEntry g (some s0)) conditionStack
                    visitStack' conds'
              | .other => conds'

/-- `ReachingConditions::buildSumsOfProducts` (program_output.cpp:127-132):
run `build` from the region start with an empty condition stack and the
region end pre-seeded in the visit stack. -/
def buildSumsOfProducts (g : AstGrapherM) (term : Nat → Terminator)
    (fuel : Nat) (regionStart regionEnd : Option GraphNodeM) :
    Nat → List (List Expr) :=
  buildReachingConditions g term fuel regionStart [] [regionEnd] fun _ => []

/-- C2: the reaching-conditions builder records, for each node it visits, the
current condition stack as one product, and
(i) halts, leaving the map unchanged, at any node already on the visit stack
    (back edges);
(ii) at a node with a distinct exit (an already-folded region), records the
     product and traverses into the node resolved from that exit with the
     condition stack unchanged;
(iii) at a node whose entry block ends in a conditional branch on `c`,
      records the product, then builds successor 0 with the stack extended by
      `Value(c)` and successor 1 with the stack extended by
      `UnaryNot(Value(c))`, each extension being popped after its call;
(iv) `buildSumsOfProducts` pre-seeds the region exit in the visit stack, so
     the recursion halts at the exit immediately, leaving its map entry
     unchanged. -/
theorem buildReachingConditions_spec (g : AstGrapherM)
    (term : Nat → Terminator) :
    (∀ fuel currentNode stack visitStack conds,
        currentNode ∈ visitStack →
        buildReachingConditions g term (fuel + 1) currentNode stack
          visitStack conds = conds) ∧
    (∀ fuel node stack visitStack conds,
        some node ∉ visitStack → node.hasExit = true →
        buildReachingConditions g term (fuel + 1) (some node) stack
            visitStack conds =
          buildReachingConditions g term fuel
            (getGraphNodeFromEntry g node.exit) stack
            (visitStack ++ [some node])
            (recordCondition conds node.node.id stack)) ∧
    (∀ fuel node stack visitStack conds c s0 s1,
        some node ∉ visitStack → node.hasExit = false →
        term node.entry = .condBr c s0 s1 →
        buildReachingConditions g term (fuel + 1) (some node) stack
            visitStack conds =
          buildReachingConditions g term fuel
            (getGraphNodeFromEntry g (some s1))
            (stack ++ [Expr.unaryNot (Expr.value c)])
            (visitStack ++ [some node])
            (buildReachingConditions g term fuel
              (getGraphNodeFromEntry g (some s0))
              (stack ++ [Expr.value c]) (visitStack ++ [some node])
              (recordCondition conds node.node.id stack))) ∧
    (∀ fuel regionStart regionEnd,
        buildSumsOfProducts g term (fuel + 1) regionStart regionEnd =
          (if regionStart = regionEnd then (fun _ => [])
           else buildReachingConditions g term (fuel + 1) regionStart []
             [regionEnd] fun _ => []) ∧
        ∀ stack conds,
          buildReachingConditions g term (fuel + 1) regionEnd stack
            [regionEnd] conds = conds) := by
  refine ⟨?_, ?_, ?_, ?_⟩
  · intro fuel currentNode stack visitStack conds hmem
    simp [buildReachingConditions, hmem]
  · intro fuel node stack visitStack conds hmem hexit
    simp [buildReachingConditions, hmem, hexit]
  · intro fuel node stack visitStack conds c s0 s1 hmem hexit hterm
    simp [buildReachingConditions, hmem, hexit, hterm]
  · intro fuel regionStart regionEnd
    constructor
    · by_cases heq : regionStart = regionEnd
      · subst heq
        simp [buildSumsOfProducts, buildReachingConditions]
      · simp [buildSumsOfProducts, heq]
    · intro stack conds
      simp [buildReachingConditions]

/-- A concrete already-folded graph node (distinct exit) used in witnesses. -/
def wNodeExit : GraphNodeM := ⟨⟨3, Stmt.seq []⟩, 0, some 1⟩

/-- A concrete leaf graph node (exit equal to entry) used in witnesses. -/
def wNodeLeaf : GraphNodeM := ⟨⟨4, Stmt.seq []⟩, 0, some 0⟩

/-- Witness for the C2 step behaviors at concrete nodes: halting on a visited
node, traversal through a folded exit, the two condition-stack extensions of
a conditional branch, and the pre-seeded halt at the region exit. -/
theorem buildReachingConditions_spec_witness :
    (buildReachingConditions AstGrapherM.empty
        (fun _ => Terminator.condBr 7 1 2) 1 (some wNodeExit) []
        [some wNodeExit] (fun _ => []) = fun _ => []) ∧
    (buildReachingConditions AstGrapherM.empty
        (fun _ => Terminator.condBr 7 1 2) 1 (some wNodeExit) [] []
        (fun _ => []) =
      buildReachingConditions AstGrapherM.empty
        (fun _ => Terminator.condBr 7 1 2) 0
        (getGraphNodeFromEntry AstGrapherM.empty wNodeExit.exit) []
        [some wNodeExit]
        (recordCondition (fun _ => []) wNodeExit.node.id [])) ∧
    (buildReachingConditions AstGrapherM.empty
        (fun _ => Terminator.condBr 7 1 2) 1 (some wNodeLeaf) [] []
        (fun _ => []) =
      buildReachingConditions AstGrapherM.empty
        (fun _ => Terminator.condBr 7 1 2) 0
        (getGraphNodeFromEntry AstGrapherM.empty (some 2))
        ([] ++ [Expr.unaryNot (Expr.value 7)]) [some wNodeLeaf]
        (buildReachingConditions AstGrapherM.empty
          (fun _ => Terminator.condBr 7 1 2) 0
          (getGraphNodeFromEntry AstGrapherM.empty (some 1))
          ([] ++ [Expr.value 7]) [some wNodeLeaf]
          (recordCondition (fun _ => []) wNodeLeaf.node.id []))) ∧
    (buildSumsOfProducts AstGrapherM.empty (fun _ => Terminator.condBr 7 1 2)
        1 none none =
      if (none : Option GraphNodeM) = none then (fun _ => [])
      else buildReachingConditions AstGrapherM.empty
        (fun _ => Terminator.condBr 7 1 2) 1 none [] [none] fun _ => []) ∧
    (buildReachingConditions AstGrapherM.empty
        (fun _ => Terminator.condBr 7 1 2) 1 none [] [none]
        (fun _ => []) = fun _ => []) := by
  obtain ⟨h1, h2, h3, h4⟩ := buildReachingConditions_spec AstGrapherM.empty
    (fun _ => Terminator.condBr 7 1 2)
  exact ⟨h1 0 (some wNodeExit) [] [some wNodeExit] (fun _ => []) (by decide),
    h2 0 wNodeExit [] [] (fun _ => []) (by decide) (by decide),
    h3 0 wNodeLeaf [] [] (fun _ => []) 7 1 2 (by decide) (by decide) rfl,
    (h4 0 none none).1,
    (h4 0 none none).2 [] (fun _ => [])⟩

/-- `postOrder` (program_output.cpp:135-153): post-order walk of the AST graph
from `current`, stopping at visited nodes; a folded node's sole successor is
the node resolved from its exit block, a leaf's successors are the CFG
successors of its entry block.  Nodes are pushed after their successors.  A
null node not already visited would be dereferenced by the source; it is
modelled as stopping (the exit, the only unresolvable node, is pre-seeded).
Fuel bounds the recursion depth. -/
def postOrderNodes (g : AstGrapherM) (succ : Nat → List Nat) :
    Nat → Option GraphNodeM → List (Option GraphNodeM) → List StmtRef →
    List (Option GraphNodeM) × List StmtRef
  | 0, _, visited, into => (visited, into)
  | fuel + 1, current, visited, into =>
      if current ∈ visited then (visited, into)
      else
        match current with
        | none => (visited, into)
        | some node =>
            let visited' := current :: visited
            let next :=
              if node.hasExit then
                postOrderNodes g succ fuel (getGraphNodeFromEntry g node.exit)
                  visited' into
              else
                (succ node.entry).foldl
                  (fun acc s =>
                    postOrderNodes g succ fuel
                      (getGraphNodeFromEntry g (some s)) acc.1 acc.2)
                  (visited', into)
            (next.1, next.2 ++ [node.node])

/-- `reversePostOrder` (program_output.cpp:155-162): post-order from the
region entry with the region exit pre-seeded as visited, reversed. -/
def reversePostOrder (g : AstGrapherM) (succ : Nat → List Nat) (fuel : Nat)
    (entry exit : Option GraphNodeM) : List StmtRef :=
  (postOrderNodes g succ fuel entry [exit] []).2.reverse

/-- The guard-walking loop of `structurizeRegion` (program_output.cpp:539-604):
walk the sums of the product outermost to innermost, keeping a cursor into
the sequence under construction.  When the last statement of the cursor is an
`IfElse` whose condition is reference-equal to the sum's collapsed condition
after stripping at most one negation from each, descend into its then-body
(same parity) or else-body (inverted parity, created when absent); otherwise
append a fresh `IfElse` — carrying the stripped condition when the comparison
was attempted, exactly as the source's mutated local — and descend into its
fresh body.  The node is appended to the innermost body.  The source's
`cast<SequenceNode>` of a non-sequence branch would assert; that situation is
unreachable because every branch built here is a sequence, and it is modelled
as appending a fresh guard.  An empty sum would give the source a null
condition; sums are filtered non-empty, and the case is modelled as skipping
the guard. -/
def insertNodeIntoBody : List Stmt → List (List Expr) → Stmt → List Stmt
  | body, [], node => body ++ [node]
  | body, sum :: rest, node =>
      match collapse sum BinaryOp.shortCircuitOr with
      | none => insertNodeIntoBody body rest node
      | some condition =>
          match body.getLast? with
          | some (Stmt.ifElse thisCondition ifBody elseBody) =>
              let sumStrip :=
                match condition with
                | Expr.unaryNot x => (x, true)
                | c => (c, false)
              let curStrip :=
                match thisCondition with
                | Expr.unaryNot x => (x, true)
                | c => (c, false)
              if curStrip.1.isReferenceEqual sumStrip.1 then
                if sumStrip.2 == curStrip.2 then
                  match ifBody with
                  | Stmt.seq inner =>
                      body.dropLast ++
                        [Stmt.ifElse thisCondition
                          (Stmt.seq (insertNodeIntoBody inner rest node))
                          elseBody]
                  | _ =>
                      body ++
                        [Stmt.ifElse sumStrip.1
                          (Stmt.seq (insertNodeIntoBody [] rest node)) none]
                else
                  match elseBody with
                  | some (Stmt.seq inner) =>
                      body.dropLast ++
                        [Stmt.ifElse thisCondition ifBody
                          (some (Stmt.seq (insertNodeIntoBody inner rest node)))]
                  | _ =>
                      body.dropLast ++
                        [Stmt.ifElse thisCondition ifBody
                          (some (Stmt.seq (insertNodeIntoBody [] rest node)))]
              else
                body ++
                  [Stmt.ifElse sumStrip.1
                    (Stmt.seq (insertNodeIntoBody [] rest node)) none]
          | _ =>
              body ++
                [Stmt.ifElse condition
                  (Stmt.seq (insertNodeIntoBody [] rest node)) none]

/-- The per-node loop of `structurizeRegion` (program_output.cpp:529-605):
for each node in reverse post-order, convert its reaching condition to a
product of sums and insert the node under its guards.  The `conditions.at`
lookup is modelled by a total map defaulting to no products; `none`
propagates the undefined `front()` read of `simplifySumOfProducts`. -/
def structurizeNodes (conditions : Nat → List (List Expr)) :
    List StmtRef → List Stmt → Option (List Stmt)
  | [], body => some body
  | node :: rest, body =>
      match simplifySumOfProducts (conditions node.id) with
      | none => none
      | some productOfSums =>
          structurizeNodes conditions rest
            (insertNodeIntoBody body productOfSums node.val)

/-- `structurizeRegion` (program_output.cpp:516-607): build the reaching
conditions of the region, then emit the nodes in reverse post-order under
their simplified guards into a fresh `SequenceNode` (whose arena identity is
`nextId`). -/
def structurizeRegion (g : AstGrapherM) (term : Nat → Terminator)
    (succ : Nat → List Nat) (fuel nextId entry : Nat) (exit : Option Nat) :
    Option (StmtRef × Nat) :=
  let astEntry := getGraphNodeFromEntry g (some entry)
  let astExit := getGraphNodeFromEntry g exit
  let conditions := buildSumsOfProducts g term fuel astEntry astExit
  let rpo := reversePostOrder g succ fuel astEntry astExit
  match structurizeNodes conditions rpo [] with
  | none => none
  | some stmts => some (⟨nextId, Stmt.seq stmts⟩, nextId + 1)

/-- `findBackEdgeDestinations` (program_output.cpp:369-384): depth-first walk
pushing the current block on a path stack; a successor already on the stack
is a back-edge destination and is collected (the result set deduplicates),
any other successor is recursed into.  Fuel bounds the recursion depth. -/
def findBackEdgeDestinations (succ : Nat → List Nat) :
    Nat → Nat → List Nat → List Nat → List Nat
  | 0, _, _, result => result
  | fuel + 1, entry, stack, result =>
      let stack' := stack ++ [entry]
      (succ entry).foldl
        (fun res bb =>
          if bb ∈ stack' then (if bb ∈ res then res else res ++ [bb])
          else findBackEdgeDestinations succ fuel bb stack' res)
        result

/-- `AstBackEnd::runOnLoop` (program_output.cpp:706-719): structurize the
region, recursively simplify it (`recursivelyAddBreakStatements` is a stub),
wrap it in a freshly allocated endless `LoopNode`, and register it for the
region. -/
def runOnLoop (g : AstGrapherM) (term : Nat → Terminator)
    (succ : Nat → List Nat) (fuel entry : Nat) (exit : Option Nat) :
    Option AstGrapherM :=
  match structurizeRegion g term succ fuel g.nextId entry exit with
  | none => none
  | some (seqRef, counter1) =>
      let endlessLoop : StmtRef := ⟨counter1, runOnLoopStatement seqRef.val⟩
      some (updateRegion { g with nextId := counter1 + 1 } entry exit
        endlessLoop)

/-- `AstBackEnd::runOnRegion` (program_output.cpp:721-727): structurize the
region, recursively simplify it and register the simplified statement (an
existing arena object, modelled under the sequence's allocation identity). -/
def runOnRegion (g : AstGrapherM) (term : Nat → Terminator)
    (succ : Nat → List Nat) (fuel entry : Nat) (exit : Option Nat) :
    Option AstGrapherM :=
  match structurizeRegion g term succ fuel g.nextId entry exit with
  | none => none
  | some (seqRef, counter1) =>
      let simplified : StmtRef := ⟨seqRef.id, runOnRegionStatement seqRef.val⟩
      some (updateRegion { g with nextId := counter1 } entry exit simplified)

/-- The per-function CFG analyses consumed by `AstBackEnd::runOnFunction`
(program_output.cpp:655-657), as oracles: the dominator relation, the
post-dominator relation, post-dominator-tree node lookup (none when the block
— or the null block — has no tree node) and the immediate post-dominator. -/
structure FunctionAnalyses where
  dominates : Nat → Nat → Bool
  postDominates : Nat → Nat → Bool
  pdGetNode : Option Nat → Option Nat
  ipdom : Nat → Option Nat

/-- A function of the module: its identity, entry block, block list (used for
the emptiness check), CFG successors, per-block terminators and per-block
instruction lists. -/
structure FunctionM where
  fid : Nat
  entryBlock : Nat
  blocks : List Nat
  succ : Nat → List Nat
  term : Nat → Terminator
  insts : Nat → List Inst

/-- The per-module state of the `AstBackEnd` pass: the grapher (which also
holds the arena allocation counter) and the per-function AST map. -/
structure AstBackEndState where
  grapher : AstGrapherM
  astPerFunction : List (Nat × StmtRef)
deriving DecidableEq, Repr

/-- The post-order walk over basic blocks used by the structurizer driver
(LLVM's `post_order`, program_output.cpp:661): depth-first from the entry,
successors first, each block emitted after its successors.  Returns the
visited set and the order; fuel bounds the depth. -/
def postOrderBlocks (succ : Nat → List Nat) :
    Nat → Nat → List Nat → List Nat × List Nat
  | 0, _, visited => (visited, [])
  | fuel + 1, bb, visited =>
      if bb ∈ visited then (visited, [])
      else
        let next :=
          (succ bb).foldl
            (fun acc s =>
              let r := postOrderBlocks succ fuel s acc.1
              (r.1, acc.2 ++ r.2))
            (bb :: visited, [])
        (next.1, next.2 ++ [bb])

/-- The candidate-exit computation of one climb step
(program_output.cpp:669-676): the post-dominator-tree node of the current
graph node's exit block, stepped once more to its immediate post-dominator
when the node has no distinct exit.  (The source dereferences a null tree
node on that extra step; the null case is modelled as the null sink.) -/
def climbSuccessor (A : FunctionAnalyses) (graphNode : GraphNodeM) :
    Option Nat :=
  if graphNode.hasExit then A.pdGetNode graphNode.exit
  else
    match A.pdGetNode graphNode.exit with
    | some s => A.ipdom s
    | none => none

/-- The post-dominator-tree climb of `AstBackEnd::runOnFunction`
(program_output.cpp:667-697): while the current tree node is non-null,
resolve the corresponding graph node, take as candidate exit the
post-dominator-tree node of the graph node's exit block — stepping once more
to its immediate post-dominator when the node has no distinct exit — and, if
`(entry, exit)` is a region, fold it with `runOnLoop` (when `entry` is a
back-edge destination, which is then consumed) or `runOnRegion`; otherwise
stop as soon as `entry` no longer dominates the exit (the null sink is
modelled as not dominated).  A null graph node would be dereferenced by the
source; it is modelled as failure.  Fuel bounds the climb. -/
def climbPostDoms (A : FunctionAnalyses) (fn : FunctionM) (fuel : Nat) :
    Nat → AstGrapherM → List Nat → Nat → Option Nat →
    Option (AstGrapherM × List Nat)
  | 0, g, backNodes, _, _ => some (g, backNodes)
  | cf + 1, g, backNodes, entry, domNode =>
      match domNode with
      | none => some (g, backNodes)
      | some dn =>
          match getGraphNodeFromEntry g (some dn) with
          | none => none
          | some graphNode =>
              if isRegion fn.succ A.dominates A.postDominates fuel entry
                  (climbSuccessor A graphNode) then
                if entry ∈ backNodes then
                  match runOnLoop g fn.term fn.succ fuel entry
                      (climbSuccessor A graphNode) with
                  | none => none
                  | some g' =>
                      climbPostDoms A fn fuel cf g' (backNodes.erase entry)
                        entry (climbSuccessor A graphNode)
                else
                  match runOnRegion g fn.term fn.succ fuel entry
                      (climbSuccessor A graphNode) with
                  | none => none
                  | some g' =>
                      climbPostDoms A fn fuel cf g' backNodes entry
                        (climbSuccessor A graphNode)
              else
                if (match climbSuccessor A graphNode with
                    | some e => A.dominates entry e
                    | none => false) then
                  climbPostDoms A fn fuel cf g backNodes entry
                    (climbSuccessor A graphNode)
                else
                  some (g, backNodes)

/-- The per-entry loop of `AstBackEnd::runOnFunction`
(program_output.cpp:661-698): for each block in post-order, add it to the
grapher and climb the post-dominator tree from it. -/
def runOnFunctionBlocks (A : FunctionAnalyses) (fn : FunctionM)
    (fuel : Nat) : List Nat → AstGrapherM → List Nat →
    Option (AstGrapherM × List Nat)
  | [], g, backNodes => some (g, backNodes)
  | entry :: rest, g, backNodes =>
      match climbPostDoms A fn fuel fuel
          (addBasicBlock g entry (fn.insts entry)).2 backNodes entry
          (A.pdGetNode (some entry)) with
      | none => none
      | some (g2, backNodes2) => runOnFunctionBlocks A fn fuel rest g2 backNodes2

/-- `AstBackEnd::runOnFunction` (program_output.cpp:635-704): skip functions
already structured or empty; otherwise fetch the analyses, compute the
back-edge destinations and walk the blocks in post-order.  The final debug
`dump()` call performs no state change and is not modelled.  Note that the
grapher and the arena are NOT cleared here. -/
def runOnFunctionModel (an : FunctionM → FunctionAnalyses) (fuel : Nat)
    (st : AstBackEndState) (fn : FunctionM) : Option AstBackEndState :=
  if (st.astPerFunction.find? fun p => p.1 == fn.fid).isSome then some st
  else if fn.blocks.isEmpty then some st
  else
    match runOnFunctionBlocks (an fn) fn fuel
        (postOrderBlocks fn.succ fuel fn.entryBlock []).2 st.grapher
        (findBackEdgeDestinations fn.succ fuel fn.entryBlock [] []) with
    | none => none
    | some (g', _) => some { st with grapher := g' }

/-- The function loop of `AstBackEnd::runOnModule`
(program_output.cpp:627-631). -/
def runOnModuleFns (an : FunctionM → FunctionAnalyses) (fuel : Nat) :
    List FunctionM → AstBackEndState → Option AstBackEndState
  | [], st => some st
  | fn :: rest, st =>
      match runOnFunctionModel an fuel st fn with
      | none => none
      | some st' => runOnModuleFns an fuel rest st'

/-- `AstBackEnd::runOnModule` (program_output.cpp:621-633): clear the arena,
the per-function AST map and the grapher — once, at the start of the module —
then run every function in order on the shared state. -/
def runOnModuleModel (an : FunctionM → FunctionAnalyses) (fuel : Nat)
    (fns : List FunctionM) (_previous : AstBackEndState) :
    Option AstBackEndState :=
  runOnModuleFns an fuel fns ⟨AstGrapherM.empty, []⟩

/-- Analyses of a function with the single block `b`: the block dominates and
post-dominates itself, it is the root of the post-dominator tree, and it has
no immediate post-dominator. -/
def singleBlockAnalyses (b : Nat) : FunctionAnalyses :=
  { dominates := fun x y => x == b && y == b
    postDominates := fun x y => x == b && y == b
    pdGetNode := fun ob =>
      match ob with
      | some x => if x = b then some b else none
      | none => none
    ipdom := fun _ => none }

/-- A one-block function: function 0, block 0, ending in a `ret`. -/
def wFn1 : FunctionM :=
  ⟨0, 0, [0], fun _ => [], fun _ => Terminator.other, fun _ => []⟩

/-- A second one-block function of the same module: function 1, block 1. -/
def wFn2 : FunctionM :=
  ⟨1, 1, [1], fun _ => [], fun _ => Terminator.other, fun _ => []⟩

/-- Oracle assignment for the two one-block functions. -/
def wAnalyses : FunctionM → FunctionAnalyses := fun fn =>
  singleBlockAnalyses fn.entryBlock

/-- C9 (counterexample): per-function state is not cleared at the start of
each function.  Running the module `[wFn1, wFn2]` hands the state left by
structuring `wFn1` directly to `wFn2`, and at that hand-over point the
grapher's entry index still binds `wFn1`'s block 0 — the graph nodes and
statements created for the first function are visible when structuring the
next function begins. -/
theorem runOnFunction_state_visible_counterexample :
    runOnModuleModel wAnalyses 9 [wFn1, wFn2] ⟨AstGrapherM.empty, []⟩ =
      ((runOnFunctionModel wAnalyses 9 ⟨AstGrapherM.empty, []⟩ wFn1).bind
        fun st => runOnFunctionModel wAnalyses 9 st wFn2) ∧
    ((runOnFunctionModel wAnalyses 9 ⟨AstGrapherM.empty, []⟩ wFn1).map
      fun st => (st.grapher.nodeByEntry.find? fun p => p.1 == 0).isSome) =
      some true := by
  constructor
  · decide
  · decide

theorem find_isSome_cons {α : Type} (p : α → Bool) (x : α) (l : List α)
    (h : (l.find? p).isSome = true) : ((x :: l).find? p).isSome = true := by
  cases hp : p x
  · simpa [List.find?_cons, hp] using h
  · simp [List.find?_cons, hp]

theorem updateRegion_entry_mono (g : AstGrapherM) (entry : Nat)
    (exit : Option Nat) (node : StmtRef) (b : Nat)
    (h : ((g.nodeByEntry.find? fun p => p.1 == b)).isSome = true) :
    (((updateRegion g entry exit node).nodeByEntry.find?
      fun p => p.1 == b)).isSome = true := by
  exact find_isSome_cons _ _ _ h

theorem addBasicBlock_entry_mono (g : AstGrapherM) (bb : Nat)
    (insts : List Inst) (b : Nat)
    (h : ((g.nodeByEntry.find? fun p => p.1 == b)).isSome = true) :
    ((((addBasicBlock g bb insts).2).nodeByEntry.find?
      fun p => p.1 == b)).isSome = true := by
  exact find_isSome_cons _ _ _ h

theorem runOnRegion_entry_mono (g : AstGrapherM) (term : Nat → Terminator)
    (succ : Nat → List Nat) (fuel entry : Nat) (exit : Option Nat)
    (g' : AstGrapherM)
    (h : runOnRegion g term succ fuel entry exit = some g') (b : Nat)
    (hb : ((g.nodeByEntry.find? fun p => p.1 == b)).isSome = true) :
    ((g'.nodeByEntry.find? fun p => p.1 == b)).isSome = true := by
  unfold runOnRegion at h
  split at h
  · exact absurd h (by simp)
  · simp only [Option.some.injEq] at h
    subst h
    exact updateRegion_entry_mono _ _ _ _ _ hb

theorem runOnLoop_entry_mono (g : AstGrapherM) (term : Nat → Terminator)
    (succ : Nat → List Nat) (fuel entry : Nat) (exit : Option Nat)
    (g' : AstGrapherM)
    (h : runOnLoop g term succ fuel entry exit = some g') (b : Nat)
    (hb : ((g.nodeByEntry.find? fun p => p.1 == b)).isSome = true) :
    ((g'.nodeByEntry.find? fun p => p.1 == b)).isSome = true := by
  unfold runOnLoop at h
  split at h
  · exact absurd h (by simp)
  · simp only [Option.some.injEq] at h
    subst h
    exact updateRegion_entry_mono _ _ _ _ _ hb

theorem climbPostDoms_entry_mono (A : FunctionAnalyses) (fn : FunctionM)
    (fuel : Nat) : ∀ (cf : Nat) (g : AstGrapherM) (backNodes : List Nat)
    (entry : Nat) (domNode : Option Nat) (g' : AstGrapherM)
    (bn' : List Nat),
    climbPostDoms A fn fuel cf g backNodes entry domNode = some (g', bn') →
    ∀ b, ((g.nodeByEntry.find? fun p => p.1 == b)).isSome = true →
      ((g'.nodeByEntry.find? fun p => p.1 == b)).isSome = true := by
  intro cf
  induction cf with
  | zero =>
      intro g bn entry dn g' bn' h b hb
      simp only [climbPostDoms, Option.some.injEq, Prod.mk.injEq] at h
      rw [← h.1]
      exact hb
  | succ cf ih =>
      intro g bn entry dn g' bn' h b hb
      unfold climbPostDoms at h
      split at h
      · simp only [Option.some.injEq, Prod.mk.injEq] at h
        rw [← h.1]
        exact hb
      · split at h
        · exact absurd h (by simp)
        · split at h
          · split at h
            · split at h
              · exact absurd h (by simp)
              · next g2 hro =>
                  exact ih _ _ _ _ _ _ h b
                    (runOnLoop_entry_mono _ _ _ _ _ _ _ hro b hb)
            · split at h
              · exact absurd h (by simp)
              · next g2 hro =>
                  exact ih _ _ _ _ _ _ h b
                    (runOnRegion_entry_mono _ _ _ _ _ _ _ hro b hb)
          · split at h
            · exact ih _ _ _ _ _ _ h b hb
            · simp only [Option.some.injEq, Prod.mk.injEq] at h
              rw [← h.1]
              exact hb

theorem runOnFunctionBlocks_entry_mono (A : FunctionAnalyses)
    (fn : FunctionM) (fuel : Nat) : ∀ (po : List Nat) (g : AstGrapherM)
    (backNodes : List Nat) (g' : AstGrapherM) (bn' : List Nat),
    runOnFunctionBlocks A fn fuel po g backNodes = some (g', bn') →
    ∀ b, ((g.nodeByEntry.find? fun p => p.1 == b)).isSome = true →
      ((g'.nodeByEntry.find? fun p => p.1 == b)).isSome = true := by
  intro po
  induction po with
  | nil =>
      intro g bn g' bn' h b hb
      simp only [runOnFunctionBlocks, Option.some.injEq, Prod.mk.injEq] at h
      rw [← h.1]
      exact hb
  | cons entry rest ih =>
      intro g bn g' bn' h b hb
      unfold runOnFunctionBlocks at h
      split at h
      · exact absurd h (by simp)
      · next g2 bn2 hclimb =>
          exact ih _ _ _ _ h b
            (climbPostDoms_entry_mono A fn fuel fuel _ _ _ _ _ _ hclimb b
              (addBasicBlock_entry_mono _ _ _ _ hb))

/-- C9 (amended): the per-function state is cleared once per module, not per
function.  `runOnModule` starts every module from a fresh arena, grapher and
per-function map — the previous state is irrelevant — but `runOnFunction`
performs no clearing: every entry-index binding visible when a function's
structuring begins (in particular the nodes created for earlier functions of
the same module) is still visible when it ends, so earlier functions' nodes
remain visible in the grapher's indices when the next function begins. -/
theorem runOnModule_clears_per_module_not_per_function :
    (∀ (an : FunctionM → FunctionAnalyses) (fuel : Nat)
        (fns : List FunctionM) (st1 st2 : AstBackEndState),
        runOnModuleModel an fuel fns st1 = runOnModuleModel an fuel fns st2) ∧
    (∀ (an : FunctionM → FunctionAnalyses) (fuel : Nat)
        (st : AstBackEndState) (fn : FunctionM) (st' : AstBackEndState)
        (b : Nat),
        runOnFunctionModel an fuel st fn = some st' →
        ((st.grapher.nodeByEntry.find? fun p => p.1 == b)).isSome = true →
        ((st'.grapher.nodeByEntry.find? fun p => p.1 == b)).isSome = true) := by
  constructor
  · intro an fuel fns st1 st2
    rfl
  · intro an fuel st fn st' b h hb
    unfold runOnFunctionModel at h
    split at h
    · simp only [Option.some.injEq] at h
      rw [← h]
      exact hb
    · split at h
      · simp only [Option.some.injEq] at h
        rw [← h]
        exact hb
      · split at h
        · exact absurd h (by simp)
        · next g2 bn2 hblocks =>
            simp only [Option.some.injEq] at h
            rw [← h]
            exact runOnFunctionBlocks_entry_mono _ _ _ _ _ _ _ _ hblocks b hb

/-- Witness for the amended C9: the bindings created for `wFn1`'s block 0
survive running `wFn2` on the same state, and the module run forgets any
previous state. -/
theorem runOnModule_clears_per_module_not_per_function_witness :
    (runOnModuleModel wAnalyses 9 [] ⟨AstGrapherM.empty, []⟩ =
      runOnModuleModel wAnalyses 9 []
        ⟨(addBasicBlock AstGrapherM.empty 5 []).2, []⟩) ∧
    ((runOnFunctionModel wAnalyses 9
        ⟨(addBasicBlock AstGrapherM.empty 0 []).2, []⟩ wFn2).map
      fun st => (st.grapher.nodeByEntry.find? fun p => p.1 == 0).isSome) =
      some true := by
  constructor
  · exact runOnModule_clears_per_module_not_per_function.1 wAnalyses 9 []
      ⟨AstGrapherM.empty, []⟩ ⟨(addBasicBlock AstGrapherM.empty 5 []).2, []⟩
  · cases heq : runOnFunctionModel wAnalyses 9
        ⟨(addBasicBlock AstGrapherM.empty 0 []).2, []⟩ wFn2 with
    | none => exact absurd heq (by decide)
    | some st' =>
        have h := runOnModule_clears_per_module_not_per_function.2 wAnalyses 9
          ⟨(addBasicBlock AstGrapherM.empty 0 []).2, []⟩ wFn2 st' 0 heq
          (by decide)
        simpa using h
